import Mathlib

/-!
Verification development for the embedding-computation core of
`heareval` (`heareval/embeddings/task_embeddings.py`).

The development shallowly embeds the two algorithmic components under
study:

* `get_labels_for_timestamps` — the label aligner, which converts
  per-clip interval annotations into per-timestamp label sequences under
  the policies `default`, `smoothed` and `continuous`;
* `memmap_embeddings` — the two-pass split consolidator (sizing pass and
  fill pass).

Modelling conventions:

* Python floats (timestamps, interval bounds, numeric payloads) are
  modelled as exact rationals `ℚ`.
* Fallible code is modelled with `Except`: every `raise`, failing
  `assert`, out-of-bounds access, unbound local and numpy broadcast
  failure is mapped to an explicit error constructor.
* numpy arrays in the consolidator are modelled by their dtype and
  shape; the claims under study only concern shapes, counts and error
  behaviour, never the copied float payload.
* The interval tree of the `default` policy is a set of
  (begin, end, data) triples, so events that agree on start, end and
  label collapse into a single interval; the embedding deduplicates
  accordingly.  A point query returns the intervals with
  begin ≤ t < end, and the source widens every end by 0.0001.
-/

/-- A label event of a clip: the JSON objects carry `start`, `end`,
`label` and (for continuous tasks) `values` fields.  The source field
`end` is called `stop` here because `end` is a Lean keyword. -/
structure Event where
  start : ℚ
  stop : ℚ
  label : String
  values : List ℚ
deriving DecidableEq, Repr

/-- Failure modes of `get_labels_for_timestamps`. -/
inductive AlignError
  /-- the entry assertion `len(labels) == len(timestamps)` fails -/
  | alignmentMismatch
  /-- `IntervalTree.addi` rejects a null interval (begin ≥ end) -/
  | valueError
  /-- `UnboundLocalError`: the `smoothed` branch sorts the variable
  `values` before ever assigning it -/
  | unboundLocal
  /-- `IndexError`: `values[0]` on an empty value array -/
  | indexError
  /-- the final `else: raise "nope"` branch for unknown policy names -/
  | unsupportedPolicy
deriving DecidableEq, Repr

/-- The aligner returns per-clip lists of per-timestamp entries: lists
of labels for the `default` policy, numeric vectors for the
interpolating policies.  Under `to_onehot` the `default` policy can
emit the (possibly absent) `default_label`, hence `Option String`. -/
inductive AlignOutput
  | discrete (clips : List (List (List (Option String))))
  | numeric (clips : List (List (List ℚ)))
deriving DecidableEq, Repr

/-- The widening constant `0.0001` added to every interval end. -/
def eps : ℚ := 1 / 10000

/-- Two events denote the same interval-tree member: the tree stores
(begin, end, data) triples in a set, ignoring the `values` field. -/
def sameInterval (e f : Event) : Bool :=
  decide (e.start = f.start ∧ e.stop = f.stop ∧ e.label = f.label)

/-- The distinct (begin, end, data) triples entered into the interval
tree, keeping the first occurrence of every triple. -/
def treeEvents : List Event → List Event
  | [] => []
  | e :: rest => e :: (treeEvents rest).filter (fun f => ! sameInterval e f)

/-- Labels of the tree intervals covering timestamp `t`:
`[interval.data for interval in tree[t]]` with every end widened by
`eps`, so the span queried is [start, stop + eps). -/
def coveredLabels (events : List Event) (t : ℚ) : List String :=
  ((treeEvents events).filter
      (fun e => decide (e.start ≤ t ∧ t < e.stop + eps))).map (fun e => e.label)

/-- One step of the `to_onehot` stabilization of the `default` policy:
zero matches reuse the previous choice (or `default_label` if there is
none); two or more matches keep the previous choice when it is among
the matches and otherwise fall back to `default_label`; a single match
is taken as is. -/
def onehotStep (default_label : Option String) (prev : Option String) :
    List String → Option String
  | [] =>
      match prev with
      | some l => some l
      | none => default_label
  | [m] => some m
  | m :: m' :: rest =>
      match prev with
      | some l => if l ∈ m :: m' :: rest then some l else default_label
      | none => default_label

/-- The stateful timestamp loop of the `default` policy with
`to_onehot=True`: `last_label` starts as `None` and is replaced by the
chosen entry after every timestamp. -/
def onehotScan (default_label : Option String) (events : List Event) :
    Option String → List ℚ → List (List (Option String))
  | _, [] => []
  | prev, t :: rest =>
      [onehotStep default_label prev (coveredLabels events t)] ::
        onehotScan default_label events
          (onehotStep default_label prev (coveredLabels events t)) rest

/-- The `default` policy for one clip.  `IntervalTree.addi` raises
`ValueError` on a null interval, i.e. whenever
start ≥ stop + eps for some event; otherwise the clip yields one entry
per timestamp. -/
def defaultClip (to_onehot : Bool) (default_label : Option String)
    (events : List Event) (timestamps : List ℚ) :
    Except AlignError (List (List (Option String))) :=
  if events.all (fun e => decide (e.start < e.stop + eps)) then
    .ok (if to_onehot then onehotScan default_label events none timestamps
         else timestamps.map (fun t => (coveredLabels events t).map some))
  else .error .valueError

/-- Insertion step of a stable sort on the first component,
modelling Python's `sorted(values, key=lambda v: v[0])`. -/
def insertByFst (p : ℚ × List ℚ) : List (ℚ × List ℚ) → List (ℚ × List ℚ)
  | [] => [p]
  | q :: rest => if p.1 ≤ q.1 then p :: q :: rest else q :: insertByFst p rest

/-- Stable sort by first component. -/
def sortByFst : List (ℚ × List ℚ) → List (ℚ × List ℚ)
  | [] => []
  | p :: rest => insertByFst p (sortByFst rest)

/-- The sorted (onset, value-vector) pairs of the `continuous` policy:
`values = sorted([(event['start'], event['values']) ...], key=v[0])`. -/
def sortedPairs (events : List Event) : List (ℚ × List ℚ) :=
  sortByFst (events.map (fun e => (e.start, e.values)))

/-- `np.searchsorted(onsets, t)` with the default side `left` on a
sorted onset array: the number of onsets strictly below `t`. -/
def searchsortedLeft (s : List (ℚ × List ℚ)) (t : ℚ) : Nat :=
  s.countP (fun q => decide (q.1 < t))

/-- The interpolated row
`(1-alpha) * values[upper-1] + alpha * values[upper]` with
`alpha = (t - lower) / (upper - lower)`, taken elementwise. -/
def lerpRow (lo hi : ℚ × List ℚ) (t : ℚ) : List ℚ :=
  List.zipWith
    (fun a b => (1 - (t - lo.1) / (hi.1 - lo.1)) * a + (t - lo.1) / (hi.1 - lo.1) * b)
    lo.2 hi.2

/-- The per-timestamp body of the interpolating policies: clamp below
the first onset and above the last onset, interpolate linearly in
between.  On an empty pair list `values[0]` is an out-of-bounds
access. -/
def interpAt (s : List (ℚ × List ℚ)) (t : ℚ) : Except AlignError (List ℚ) :=
  match s with
  | [] => .error .indexError
  | p :: rest =>
      if searchsortedLeft (p :: rest) t = 0 then .ok p.2
      else if searchsortedLeft (p :: rest) t = (p :: rest).length then
        .ok ((p :: rest).getLastD (0, [])).2
      else
        .ok (lerpRow ((p :: rest).getD (searchsortedLeft (p :: rest) t - 1) (0, []))
              ((p :: rest).getD (searchsortedLeft (p :: rest) t) (0, [])) t)

/-- The timestamp loop of one `continuous` clip. -/
def interpList (s : List (ℚ × List ℚ)) : List ℚ → Except AlignError (List (List ℚ))
  | [] => .ok []
  | t :: rest =>
      match interpAt s t with
      | .error e => .error e
      | .ok v =>
          match interpList s rest with
          | .error e => .error e
          | .ok vs => .ok (v :: vs)

/-- The `continuous` policy for one clip. -/
def continuousClip (events : List Event) (timestamps : List ℚ) :
    Except AlignError (List (List ℚ)) :=
  interpList (sortedPairs events) timestamps

/-- The clip loop: clips are processed in order and the first failing
clip aborts the whole call. -/
def clipLoop {α : Type} (f : List Event → List ℚ → Except AlignError α) :
    List (List Event × List ℚ) → Except AlignError (List α)
  | [] => .ok []
  | (l, ts) :: rest =>
      match f l ts with
      | .error e => .error e
      | .ok out =>
          match clipLoop f rest with
          | .error e => .error e
          | .ok outs => .ok (out :: outs)

/-- Shallow embedding of `get_labels_for_timestamps`.  The entry
assertion compares the clip counts; the `smoothed` branch executes
`values = sorted(values, ...)` with `values` not yet assigned, so it
raises `UnboundLocalError` on the first clip (an empty clip list never
enters the loop and returns the empty result); unknown policy names hit
the `raise` in the final `else`. -/
def get_labels_for_timestamps (labels : List (List Event))
    (timestamps : List (List ℚ)) (mode : String) (to_onehot : Bool)
    (default_label : Option String) : Except AlignError AlignOutput :=
  if labels.length = timestamps.length then
    if mode = "default" then
      match clipLoop (defaultClip to_onehot default_label) (labels.zip timestamps) with
      | .error e => .error e
      | .ok clips => .ok (.discrete clips)
    else if mode = "smoothed" then
      match labels with
      | [] => .ok (.numeric [])
      | _ :: _ => .error .unboundLocal
    else if mode = "continuous" then
      match clipLoop continuousClip (labels.zip timestamps) with
      | .error e => .error e
      | .ok clips => .ok (.numeric clips)
    else .error .unsupportedPolicy
  else .error .alignmentMismatch

/-- numpy dtypes occurring in the consolidator model. -/
inductive Dtype
  | float32
  | float64
  | int64
deriving DecidableEq, Repr

/-- A numpy array as seen by the consolidator: its dtype and shape.
The claims under study never inspect the copied float payload. -/
structure NpArray where
  dtype : Dtype
  shape : List Nat
deriving DecidableEq, Repr

/-- The per-file artifacts of one audio file of a split:
`<name>.embedding.npy`, `<name>.target-labels.json` and (read only for
event/continuous splits) `<name>.timestamps.json`. -/
structure SplitFile (L : Type) where
  name : String
  emb : NpArray
  lbl : List L
  timestamps : List ℚ
deriving DecidableEq, Repr

/-- The two metadata fields driving the consolidator. -/
structure TaskMetadata where
  embedding_type : String
  prediction_type : String
deriving DecidableEq, Repr

/-- Failure modes of `memmap_embeddings`. -/
inductive ConsError
  /-- a failing `assert` -/
  | assertionError
  /-- `NameError`: `ndim` is still unbound after an empty sizing loop -/
  | nameError
  /-- numpy broadcast failure on a memmap slice assignment -/
  | broadcastError
  /-- `ValueError(f"Unknown embedding type: ...")` -/
  | unknownEmbeddingType
deriving DecidableEq, Repr

/-- An element of the accumulated label list.  The Python list is
heterogeneous: scene splits append each file's whole label list as one
element (`labels.append(lbl)`), event/continuous splits extend with the
per-timestamp entries (`labels += lbl`). -/
inductive CLbl (L : Type)
  | file (ls : List L)
  | entry (x : L)
deriving DecidableEq, Repr

/-- `np.load(...).astype(np.float32)`: the loaded array is cast, so its
dtype is 32-bit float no matter what was stored. -/
def astypeFloat32 (a : NpArray) : NpArray := { a with dtype := .float32 }

/-- One file of the sizing pass: the embedding is loaded and cast to
float32, its rank is asserted against the embedding type, the row count
is accumulated and `ndim` is overwritten with this file's column count.
The subsequent `assert emb.dtype == np.float32` sits after the cast and
therefore can never fail. -/
def sizingStep {L : Type} (etype : String) (acc : Nat × Option Nat)
    (f : SplitFile L) : Except ConsError (Nat × Option Nat) :=
  let emb := astypeFloat32 f.emb
  if etype = "scene" then
    if emb.shape.length = 1 then
      if emb.dtype = .float32 then .ok (acc.1 + 1, some (emb.shape.getD 0 0))
      else .error .assertionError
    else .error .assertionError
  else if etype = "event" ∨ etype = "continuous" then
    if emb.shape.length = 2 then
      if emb.dtype = .float32 then
        .ok (acc.1 + emb.shape.getD 0 0, some (emb.shape.getD 1 0))
      else .error .assertionError
    else .error .assertionError
  else .error .unknownEmbeddingType

/-- The sizing loop over all files of the split. -/
def sizingLoop {L : Type} (etype : String) (acc : Nat × Option Nat) :
    List (SplitFile L) → Except ConsError (Nat × Option Nat)
  | [] => .ok acc
  | f :: rest =>
      match sizingStep etype acc f with
      | .error e => .error e
      | .ok acc' => sizingLoop etype acc' rest

/-- Pass 1 of `memmap_embeddings`: count the rows and record the last
file's column count, then write `(nembeddings, ndim)`.  On an empty
split `ndim` was never assigned and `json.dumps((nembeddings, ndim))`
raises `NameError`. -/
def sizingPass {L : Type} (etype : String) (files : List (SplitFile L)) :
    Except ConsError (Nat × Nat) :=
  match sizingLoop etype (0, none) files with
  | .error e => .error e
  | .ok (n, some d) => .ok (n, d)
  | .ok (_, none) => .error .nameError

/-- One file of the fill pass.  The embedding is reloaded (without the
float32 cast this time), its rank re-asserted, and its rows are copied
into the next slice of the (nemb, ndim) memmap; numpy broadcast rules
make the copy fail unless the source dimensions match the slice or are
1.  Scene files then validate label cardinality against
`prediction_type` — with the bug preserved from the source: for any
other `prediction_type` a `NotImplementedError(...)` is constructed but
never raised, so the file is consumed normally. -/
def fillStep {L : Type} (meta : TaskMetadata) (nemb ndim : Nat)
    (acc : Nat × List (CLbl L) × List (String × ℚ)) (f : SplitFile L) :
    Except ConsError (Nat × List (CLbl L) × List (String × ℚ)) :=
  let idx := acc.1
  let labels := acc.2.1
  let fts := acc.2.2
  let emb := f.emb
  if meta.embedding_type = "scene" then
    if emb.shape.length = 1 then
      if idx < nemb ∧ (emb.shape.getD 0 0 = ndim ∨ emb.shape.getD 0 0 = 1) then
        if meta.prediction_type = "multiclass" then
          if f.lbl.length = 1 then
            .ok (idx + 1, labels ++ [CLbl.file f.lbl], fts)
          else .error .assertionError
        else if meta.prediction_type = "multilabel" then
          .ok (idx + 1, labels ++ [CLbl.file f.lbl], fts)
        else
          .ok (idx + 1, labels ++ [CLbl.file f.lbl], fts)
      else .error .broadcastError
    else .error .assertionError
  else if meta.embedding_type = "event" ∨ meta.embedding_type = "continuous" then
    if emb.shape.length = 2 then
      if (min nemb (idx + emb.shape.getD 0 0) - idx = emb.shape.getD 0 0 ∨
            emb.shape.getD 0 0 = 1) ∧
          (emb.shape.getD 1 0 = ndim ∨ emb.shape.getD 1 0 = 1) then
        if emb.shape.getD 0 0 = f.lbl.length then
          if emb.shape.getD 0 0 = f.timestamps.length then
            if f.lbl.length = f.timestamps.length then
              .ok (idx + emb.shape.getD 0 0, labels ++ f.lbl.map CLbl.entry,
                   fts ++ f.timestamps.map (fun t => (f.name, t)))
            else .error .assertionError
          else .error .assertionError
        else .error .assertionError
      else .error .broadcastError
    else .error .assertionError
  else .error .unknownEmbeddingType

/-- The fill loop over all files of the split. -/
def fillLoop {L : Type} (meta : TaskMetadata) (nemb ndim : Nat)
    (acc : Nat × List (CLbl L) × List (String × ℚ)) :
    List (SplitFile L) → Except ConsError (Nat × List (CLbl L) × List (String × ℚ))
  | [] => .ok acc
  | f :: rest =>
      match fillStep meta nemb ndim acc f with
      | .error e => .error e
      | .ok acc' => fillLoop meta nemb ndim acc' rest

/-- Pass 2 of `memmap_embeddings`: fill the memmap and accumulate the
label list and, for event/continuous splits, the (file, timestamp)
reference list, whose lengths are asserted equal at the end. -/
def fillPass {L : Type} (meta : TaskMetadata) (nemb ndim : Nat)
    (files : List (SplitFile L)) :
    Except ConsError (List (CLbl L) × List (String × ℚ)) :=
  match fillLoop meta nemb ndim (0, [], []) files with
  | .error e => .error e
  | .ok (_, labels, fts) =>
      if meta.embedding_type = "event" ∨ meta.embedding_type = "continuous" then
        if labels.length = fts.length then .ok (labels, fts)
        else .error .assertionError
      else .ok (labels, fts)

/-- Shallow embedding of `memmap_embeddings` on the (already shuffled)
file list of one split: the sizing pass reports (N, D), then the fill
pass produces the consolidated label and timestamp-reference lists. -/
def memmap_embeddings {L : Type} (meta : TaskMetadata)
    (files : List (SplitFile L)) :
    Except ConsError ((Nat × Nat) × List (CLbl L) × List (String × ℚ)) :=
  match sizingPass meta.embedding_type files with
  | .error e => .error e
  | .ok (n, d) =>
      match fillPass meta n d files with
      | .error e => .error e
      | .ok (labels, fts) => .ok ((n, d), labels, fts)

/-- Rows a file contributes to the consolidated array: one for scene
splits, the first embedding dimension for event/continuous splits. -/
def rowCount {L : Type} (etype : String) (f : SplitFile L) : Nat :=
  if etype = "scene" then 1 else f.emb.shape.getD 0 0

/-! ### Helper lemmas: the `default` policy -/

theorem onehotScan_length (dl : Option String) (events : List Event)
    (ts : List ℚ) : ∀ prev, (onehotScan dl events prev ts).length = ts.length := by
  induction ts with
  | nil => intro prev; rfl
  | cons t rest ih => intro prev; simp [onehotScan, ih]

theorem onehotScan_getD (dl : Option String) (events : List Event) (ts : List ℚ) :
    ∀ (prev : Option String) (j : Nat), j < ts.length →
      (onehotScan dl events prev ts).getD j [] =
        [onehotStep dl
          (if j = 0 then prev
           else ((onehotScan dl events prev ts).getD (j - 1) []).headD none)
          (coveredLabels events (ts.getD j 0))] := by
  induction ts with
  | nil => intro prev j hj; simp at hj
  | cons t rest ih =>
      intro prev j hj
      cases j with
      | zero => simp [onehotScan]
      | succ k =>
          have hk : k < rest.length := by simpa using hj
          simp only [onehotScan, List.getD_cons_succ]
          rw [ih (onehotStep dl prev (coveredLabels events t)) k hk]
          cases k with
          | zero => simp
          | succ k' => simp

theorem treeEvents_subset : ∀ (l : List Event), ∀ e ∈ treeEvents l, e ∈ l := by
  intro l
  induction l with
  | nil => simp [treeEvents]
  | cons x rest ih =>
      intro e he
      simp only [treeEvents, List.mem_cons, List.mem_filter] at he
      rcases he with rfl | ⟨hmem, _⟩
      · exact List.mem_cons_self _ _
      · exact List.mem_cons_of_mem _ (ih _ hmem)

theorem treeEvents_cover : ∀ (l : List Event), ∀ e ∈ l, ∃ f ∈ treeEvents l,
    f.start = e.start ∧ f.stop = e.stop ∧ f.label = e.label := by
  intro l
  induction l with
  | nil => simp
  | cons x rest ih =>
      intro e he
      rcases List.mem_cons.mp he with rfl | hrest
      · refine ⟨e, ?_, rfl, rfl, rfl⟩
        simp [treeEvents]
      · obtain ⟨f, hf, h1, h2, h3⟩ := ih e hrest
        by_cases hsame : sameInterval x f
        · have hs := of_decide_eq_true hsame
          refine ⟨x, ?_, hs.1.trans h1, hs.2.1.trans h2, hs.2.2.trans h3⟩
          simp [treeEvents]
        · refine ⟨f, ?_, h1, h2, h3⟩
          simp only [treeEvents, List.mem_cons, List.mem_filter]
          exact Or.inr ⟨hf, by simp [hsame]⟩

theorem mem_coveredLabels (events : List Event) (t : ℚ) (s : String) :
    s ∈ coveredLabels events t ↔
      ∃ e ∈ events, e.start ≤ t ∧ t < e.stop + eps ∧ e.label = s := by
  unfold coveredLabels
  rw [List.mem_map]
  constructor
  · rintro ⟨e, he, rfl⟩
    rw [List.mem_filter] at he
    obtain ⟨hmem, hcov⟩ := he
    have hc := of_decide_eq_true hcov
    exact ⟨e, treeEvents_subset _ _ hmem, hc.1, hc.2, rfl⟩
  · rintro ⟨e, he, h1, h2, rfl⟩
    obtain ⟨f, hf, e1, e2, e3⟩ := treeEvents_cover _ _ he
    refine ⟨f, ?_, e3⟩
    rw [List.mem_filter]
    refine ⟨hf, decide_eq_true ⟨?_, ?_⟩⟩
    · rw [e1]; exact h1
    · rw [e2]; exact h2

/-- C1.  For every clip aligned under the default policy with
`to_onehot=true` (and well-formed intervals, which the interval tree
requires), the output has one entry per timestamp, every entry is a
single value, and entry j is chosen from the covering labels by the
causal stabilization rule applied to the previous entry's choice
(`none` standing for "no previous choice"). -/
theorem default_onehot_stabilization (events : List Event) (ts : List ℚ)
    (dl : Option String) (hwf : ∀ e ∈ events, e.start < e.stop + eps) :
    ∃ out, defaultClip true dl events ts = .ok out ∧ out.length = ts.length ∧
      ∀ j, j < ts.length →
        out.getD j [] =
          [onehotStep dl
            (if j = 0 then none else (out.getD (j - 1) []).headD none)
            (coveredLabels events (ts.getD j 0))] := by
  have hall : events.all (fun e => decide (e.start < e.stop + eps)) = true := by
    rw [List.all_eq_true]
    intro e he
    exact decide_eq_true (hwf e he)
  refine ⟨onehotScan dl events none ts, ?_, onehotScan_length dl events ts none, ?_⟩
  · simp [defaultClip, hall]
  · intro j hj
    exact onehotScan_getD dl events ts none j hj

/-- C1, witness: the spec scenario — one "dog" interval [0, 500] and
timestamps [0, 250, 500, 750] with default label "silence". -/
theorem default_onehot_stabilization_witness :
    (∀ e ∈ ([⟨0, 500, "dog", []⟩] : List Event), e.start < e.stop + eps) ∧
    (∃ out, defaultClip true (some "silence") [⟨0, 500, "dog", []⟩]
        [0, 250, 500, 750] = .ok out ∧
      out.length = ([0, 250, 500, 750] : List ℚ).length ∧
      ∀ j, j < ([0, 250, 500, 750] : List ℚ).length →
        out.getD j [] =
          [onehotStep (some "silence")
            (if j = 0 then none else (out.getD (j - 1) []).headD none)
            (coveredLabels [⟨0, 500, "dog", []⟩]
              (([0, 250, 500, 750] : List ℚ).getD j 0))]) :=
  ⟨by norm_num [eps], default_onehot_stabilization _ _ _ (by norm_num [eps])⟩

/-- C2.  For every clip aligned under the default policy with
`to_onehot=false` (and well-formed intervals), the entry at timestamp t
holds exactly the values of the intervals whose widened span
[start, stop + eps) contains t; in particular one "dog" interval
[0, 500] with timestamps [0, 250, 500, 750] yields
[["dog"], ["dog"], ["dog"], []]. -/
theorem default_raw_interval_query :
    (∀ (events : List Event) (ts : List ℚ) (dl : Option String),
      (∀ e ∈ events, e.start < e.stop + eps) →
      ∃ out, defaultClip false dl events ts = .ok out ∧ out.length = ts.length ∧
        ∀ j, j < ts.length → ∀ o : Option String,
          (o ∈ out.getD j [] ↔
            ∃ e ∈ events, e.start ≤ ts.getD j 0 ∧ ts.getD j 0 < e.stop + eps ∧
              some e.label = o)) ∧
    defaultClip false none [⟨0, 500, "dog", []⟩] [0, 250, 500, 750] =
      .ok [[some "dog"], [some "dog"], [some "dog"], []] := by
  constructor
  · intro events ts dl hwf
    have hall : events.all (fun e => decide (e.start < e.stop + eps)) = true := by
      rw [List.all_eq_true]
      intro e he
      exact decide_eq_true (hwf e he)
    refine ⟨ts.map (fun t => (coveredLabels events t).map some), ?_, by simp, ?_⟩
    · simp [defaultClip, hall]
    · intro j hj o
      have hj' : j < (ts.map (fun t => (coveredLabels events t).map some)).length := by
        simpa using hj
      rw [List.getD_eq_getElem _ _ hj', List.getElem_map,
        List.getD_eq_getElem _ _ hj]
      rw [List.mem_map]
      constructor
      · rintro ⟨s, hs, rfl⟩
        obtain ⟨e, he, h1, h2, h3⟩ := (mem_coveredLabels events _ s).mp hs
        exact ⟨e, he, h1, h2, by rw [h3]⟩
      · rintro ⟨e, he, h1, h2, rfl⟩
        exact ⟨e.label, (mem_coveredLabels events _ e.label).mpr
          ⟨e, he, h1, h2, rfl⟩, rfl⟩
  · have h0 : coveredLabels [⟨0, 500, "dog", []⟩] 0 = ["dog"] := by
      norm_num [coveredLabels, treeEvents, eps, List.filter]
    have h1 : coveredLabels [⟨0, 500, "dog", []⟩] 250 = ["dog"] := by
      norm_num [coveredLabels, treeEvents, eps, List.filter]
    have h2 : coveredLabels [⟨0, 500, "dog", []⟩] 500 = ["dog"] := by
      norm_num [coveredLabels, treeEvents, eps, List.filter]
    have h3 : coveredLabels [⟨0, 500, "dog", []⟩] 750 = [] := by
      norm_num [coveredLabels, treeEvents, eps, List.filter]
    have hall : ([⟨0, 500, "dog", []⟩] : List Event).all
        (fun e => decide (e.start < e.stop + eps)) = true := by
      norm_num [eps]
    simp [defaultClip, hall, h0, h1, h2, h3]

/-- C2, witness: the general statement applied to the spec scenario at
timestamp index 2 (the boundary query at t = 500). -/
theorem default_raw_interval_query_witness :
    (∀ e ∈ ([⟨0, 500, "dog", []⟩] : List Event), e.start < e.stop + eps) ∧
    (∃ out, defaultClip false none [⟨0, 500, "dog", []⟩] [0, 250, 500, 750]
        = .ok out ∧
      out.length = ([0, 250, 500, 750] : List ℚ).length ∧
      ∀ j, j < ([0, 250, 500, 750] : List ℚ).length → ∀ o : Option String,
        (o ∈ out.getD j [] ↔
          ∃ e ∈ ([⟨0, 500, "dog", []⟩] : List Event),
            e.start ≤ ([0, 250, 500, 750] : List ℚ).getD j 0 ∧
            ([0, 250, 500, 750] : List ℚ).getD j 0 < e.stop + eps ∧
            some e.label = o)) :=
  ⟨by norm_num [eps],
    default_raw_interval_query.1 _ _ none (by norm_num [eps])⟩

/-- C9.  For any policy name other than default, smoothed or
continuous (and clip/timestamp lists passing the entry assertion), the
aligner raises the unsupported-policy error immediately, producing no
per-clip output. -/
theorem unsupported_policy_error (labels : List (List Event))
    (timestamps : List (List ℚ)) (mode : String) (oh : Bool)
    (dl : Option String) (hlen : labels.length = timestamps.length)
    (h1 : mode ≠ "default") (h2 : mode ≠ "smoothed")
    (h3 : mode ≠ "continuous") :
    get_labels_for_timestamps labels timestamps mode oh dl =
      .error .unsupportedPolicy := by
  simp [get_labels_for_timestamps, hlen, h1, h2, h3]

/-- C9, witness: the commented-out `probabilities` policy name. -/
theorem unsupported_policy_error_witness :
    ([[]] : List (List Event)).length = ([[0]] : List (List ℚ)).length ∧
    ("probabilities" : String) ≠ "default" ∧
    ("probabilities" : String) ≠ "smoothed" ∧
    ("probabilities" : String) ≠ "continuous" ∧
    get_labels_for_timestamps [[]] [[0]] "probabilities" false none =
      .error .unsupportedPolicy :=
  ⟨rfl, by decide, by decide, by decide,
    unsupported_policy_error _ _ _ _ _ rfl (by decide) (by decide) (by decide)⟩

/-! ### Helper lemmas: error kinds of the `continuous` policy -/

theorem interpAt_error_kind (s : List (ℚ × List ℚ)) (t : ℚ) (e : AlignError)
    (h : interpAt s t = .error e) : e = .indexError := by
  match s with
  | [] => simpa [interpAt, eq_comm] using h
  | p :: rest =>
      rw [interpAt] at h
      split at h
      · exact absurd h (by simp)
      · split at h <;> exact absurd h (by simp)

theorem interpList_error_kind (s : List (ℚ × List ℚ)) :
    ∀ (ts : List ℚ) (e : AlignError),
      interpList s ts = .error e → e = .indexError := by
  intro ts
  induction ts with
  | nil => intro e h; exact absurd h (by simp [interpList])
  | cons t rest ih =>
      intro e h
      rw [interpList] at h
      split at h
      · cases h
        exact interpAt_error_kind s t _ (by assumption)
      · split at h
        · cases h
          exact ih _ (by assumption)
        · exact absurd h (by simp)

theorem continuousClip_error_kind (events : List Event) (ts : List ℚ)
    (e : AlignError) (h : continuousClip events ts = .error e) :
    e = .indexError :=
  interpList_error_kind _ ts e h

theorem clipLoop_continuous_error (pairs : List (List Event × List ℚ))
    (p : List Event × List ℚ) (hmem : p ∈ pairs)
    (herr : continuousClip p.1 p.2 = .error .indexError) :
    clipLoop continuousClip pairs = .error .indexError := by
  induction pairs with
  | nil => simp at hmem
  | cons q rest ih =>
      rw [clipLoop]
      rcases hq : continuousClip q.1 q.2 with e | v
      · rw [continuousClip_error_kind _ _ _ hq]
      · rcases List.mem_cons.mp hmem with rfl | hrest
        · rw [hq] at herr
          exact absurd herr (by simp)
        · rw [ih hrest]

/-- C10.  The continuous policy is total only when every clip has at
least one event: a clip with an empty event list and at least one
timestamp makes `values[0]` an out-of-bounds access, so the aligner
fails with an index error instead of returning an empty or default
sequence for that clip. -/
theorem continuous_empty_events_failure (labels : List (List Event))
    (timestamps : List (List ℚ)) (i : Nat) (oh : Bool) (dl : Option String)
    (hlen : labels.length = timestamps.length) (hi : i < labels.length)
    (hempty : labels.getD i [] = [])
    (hts : timestamps.getD i [] ≠ []) :
    get_labels_for_timestamps labels timestamps "continuous" oh dl =
      .error .indexError := by
  have hi' : i < timestamps.length := hlen ▸ hi
  have hzlen : i < (labels.zip timestamps).length := by
    simp [List.length_zip, hlen, hi']
  have hpair : (labels.zip timestamps).getD i ([], []) =
      (labels.getD i [], timestamps.getD i []) := by
    rw [List.getD_eq_getElem _ _ hzlen, List.getElem_zip,
      List.getD_eq_getElem _ _ hi, List.getD_eq_getElem _ _ hi']
  have hmem : (labels.getD i [], timestamps.getD i []) ∈ labels.zip timestamps := by
    rw [← hpair, List.getD_eq_getElem _ _ hzlen]
    exact List.getElem_mem hzlen
  obtain ⟨t, rest, hcons⟩ := List.exists_cons_of_ne_nil hts
  have hclip : continuousClip (labels.getD i []) (timestamps.getD i []) =
      .error .indexError := by
    rw [hempty, hcons]
    simp [continuousClip, sortedPairs, sortByFst, interpList, interpAt]
  have hloop := clipLoop_continuous_error (labels.zip timestamps) _ hmem hclip
  simp [get_labels_for_timestamps, hlen, hloop]

/-- C10, witness: one clip, no events, a single timestamp. -/
theorem continuous_empty_events_failure_witness :
    ([[]] : List (List Event)).length = ([[1/2]] : List (List ℚ)).length ∧
    0 < ([[]] : List (List Event)).length ∧
    ([[]] : List (List Event)).getD 0 [] = [] ∧
    ([[1/2]] : List (List ℚ)).getD 0 [] ≠ [] ∧
    get_labels_for_timestamps [[]] [[1/2]] "continuous" false none =
      .error .indexError :=
  ⟨rfl, by decide, rfl, by simp,
    continuous_empty_events_failure _ _ 0 false none rfl (by decide) rfl (by simp)⟩

/-- C4 (code bug).  At a timestamp equal to a recorded onset the
continuous policy returns exactly the recorded value (here t = 1000 is
the onset of the event with values [4, 5]), but the smoothed policy —
which the spec says satisfies the same idempotence property — raises
`UnboundLocalError` on the very same input instead of returning
anything, because its branch sorts the variable `values` before ever
assigning it. -/
theorem continuous_onset_idempotence_smoothed_crash :
    get_labels_for_timestamps [[⟨0, 100, "a", [2, 3]⟩, ⟨1000, 1100, "b", [4, 5]⟩]]
      [[1000]] "smoothed" false none = .error .unboundLocal ∧
    get_labels_for_timestamps [[⟨0, 100, "a", [2, 3]⟩, ⟨1000, 1100, "b", [4, 5]⟩]]
      [[1000]] "continuous" false none = .ok (.numeric [[[4, 5]]]) := by
  constructor
  · simp [get_labels_for_timestamps]
  · simp only [get_labels_for_timestamps, List.length_cons, List.length_nil,
      if_true, List.zip_cons_cons, List.zip_nil_right]
    rw [if_neg (by decide), if_neg (by decide)]
    norm_num [clipLoop, continuousClip, interpList, interpAt, sortedPairs,
      sortByFst, insertByFst, searchsortedLeft, lerpRow, List.countP_cons,
      List.countP_nil]

/-- C5 (code bug).  The spec says the smoothed and continuous policies
share the interpolation logic and differ only in payload extraction;
in the code the smoothed branch instead raises `UnboundLocalError` on
any non-empty clip list (`values` is sorted before being assigned, and
the `events_per_label` dictionary it builds is never used), while the
continuous policy on the same input returns the interpolated result. -/
theorem smoothed_continuous_divergence :
    get_labels_for_timestamps [[⟨0, 100, "a", [1]⟩]] [[0]] "smoothed" false none
      = .error .unboundLocal ∧
    get_labels_for_timestamps [[⟨0, 100, "a", [1]⟩]] [[0]] "continuous" false none
      = .ok (.numeric [[[1]]]) := by
  constructor
  · simp [get_labels_for_timestamps]
  · simp only [get_labels_for_timestamps, List.length_cons, List.length_nil,
      if_true, List.zip_cons_cons, List.zip_nil_right]
    rw [if_neg (by decide), if_neg (by decide)]
    norm_num [clipLoop, continuousClip, interpList, interpAt, sortedPairs,
      sortByFst, insertByFst, searchsortedLeft, lerpRow, List.countP_cons,
      List.countP_nil]

/-- C8 (code bug).  Scene-type consolidation enforces exactly one label
per file for `multiclass` (second conjunct) and accepts any-length
lists for `multilabel` (third conjunct), but for any other
prediction-type value the `NotImplementedError(...)` in the source is
constructed without being raised, so consolidation silently succeeds
(first conjunct) instead of failing loudly. -/
theorem scene_prediction_type_validation :
    memmap_embeddings ⟨"scene", "multioutput"⟩
      ([⟨"a", ⟨.float32, [4]⟩, ["x", "y"], []⟩] : List (SplitFile String))
      = .ok ((1, 4), [CLbl.file ["x", "y"]], []) ∧
    memmap_embeddings ⟨"scene", "multiclass"⟩
      ([⟨"a", ⟨.float32, [4]⟩, ["x", "y"], []⟩] : List (SplitFile String))
      = .error .assertionError ∧
    memmap_embeddings ⟨"scene", "multilabel"⟩
      ([⟨"a", ⟨.float32, [4]⟩, ["x", "y"], []⟩] : List (SplitFile String))
      = .ok ((1, 4), [CLbl.file ["x", "y"]], []) := by
  refine ⟨?_, ?_, ?_⟩ <;>
    simp [memmap_embeddings, sizingPass, sizingLoop, sizingStep, astypeFloat32,
      fillPass, fillLoop, fillStep]

/-- C7, counterexample.  Pass 1 accepts a 64-bit-float file (the dtype
assertion sits after an `astype(np.float32)` cast and cannot fail) and
never compares column counts across files: with files of widths 3 and 5
the sizing pass succeeds, reporting the last file's width — so neither
a dtype mismatch nor a column-count mismatch aborts consolidation
before the output array is allocated; with consistent widths a dtype
mismatch does not abort consolidation at all. -/
theorem pass1_mismatch_not_fatal :
    sizingPass "event"
      ([⟨"a", ⟨.float64, [2, 3]⟩, ["x", "y"], [0, 1]⟩,
        ⟨"b", ⟨.float32, [2, 5]⟩, ["p", "q"], [0, 1]⟩] : List (SplitFile String))
      = .ok (4, 5) ∧
    memmap_embeddings ⟨"event", "multilabel"⟩
      ([⟨"a", ⟨.float64, [2, 3]⟩, ["x", "y"], [0, 1]⟩,
        ⟨"b", ⟨.float32, [2, 3]⟩, ["p", "q"], [0, 1]⟩] : List (SplitFile String))
      = .ok ((4, 3),
          [CLbl.entry "x", CLbl.entry "y", CLbl.entry "p", CLbl.entry "q"],
          [("a", 0), ("a", 1), ("b", 0), ("b", 1)]) := by
  constructor
  · simp [sizingPass, sizingLoop, sizingStep, astypeFloat32]
  · simp [memmap_embeddings, sizingPass, sizingLoop, sizingStep, astypeFloat32,
      fillPass, fillLoop, fillStep]

/-! ### Helper lemmas: the interpolating policies -/

theorem countP_lt_eq_of_split (t : ℚ) :
    ∀ (s : List (ℚ × List ℚ)) (k : Nat), k ≤ s.length →
      (∀ m, m < k → (s.getD m (0, [])).1 < t) →
      (∀ m, k ≤ m → m < s.length → ¬ (s.getD m (0, [])).1 < t) →
      searchsortedLeft s t = k := by
  intro s
  induction s with
  | nil =>
      intro k hk _ _
      simp only [List.length_nil, Nat.le_zero] at hk
      simp [searchsortedLeft, hk]
  | cons p rest ih =>
      intro k hk h1 h2
      cases k with
      | zero =>
          have hp : ¬ p.1 < t := by simpa using h2 0 (Nat.zero_le _) (by simp)
          have hrest : searchsortedLeft rest t = 0 := by
            refine ih 0 (Nat.zero_le _) (by omega) ?_
            intro m _ hm
            simpa using h2 (m + 1) (Nat.zero_le _) (by simpa using hm)
          simp only [searchsortedLeft, List.countP_cons] at hrest ⊢
          simp [hrest, hp]
      | succ k' =>
          have hp : p.1 < t := by simpa using h1 0 (Nat.succ_pos _)
          have hrest : searchsortedLeft rest t = k' := by
            refine ih k' (by simpa using hk) ?_ ?_
            · intro m hm
              simpa using h1 (m + 1) (by omega)
            · intro m hm1 hm2
              simpa using h2 (m + 1) (by omega) (by simpa using hm2)
          simp only [searchsortedLeft, List.countP_cons] at hrest ⊢
          simp [hrest, hp]

theorem pairwise_fst_getD (s : List (ℚ × List ℚ))
    (hsort : List.Pairwise (fun a b : ℚ × List ℚ => a.1 < b.1) s)
    (a b : Nat) (hab : a < b) (hb : b < s.length) :
    (s.getD a (0, [])).1 < (s.getD b (0, [])).1 := by
  have ha : a < s.length := lt_trans hab hb
  rw [List.getD_eq_getElem _ _ ha, List.getD_eq_getElem _ _ hb]
  have h := List.pairwise_iff_get.mp hsort ⟨a, ha⟩ ⟨b, hb⟩ hab
  simpa using h

theorem getLastD_eq_getD :
    ∀ (p : ℚ × List ℚ) (rest : List (ℚ × List ℚ)) (d : ℚ × List ℚ),
      (p :: rest).getLastD d = (p :: rest).getD ((p :: rest).length - 1) d := by
  intro p rest
  induction rest generalizing p with
  | nil => intro d; rfl
  | cons q r ih =>
      intro d
      have h1 : (p :: q :: r).getLastD d = (q :: r).getLastD d := by
        simp [List.getLastD]
      rw [h1, ih q d]
      simp

theorem zipWith_fst_of_length_eq :
    ∀ (xs ys : List ℚ), xs.length = ys.length →
      List.zipWith (fun a _ => a) xs ys = xs := by
  intro xs
  induction xs with
  | nil => intro ys _; simp
  | cons x xr ih =>
      intro ys h
      cases ys with
      | nil => simp at h
      | cons y yr =>
          simp only [List.zipWith_cons_cons, List.cons.injEq, true_and]
          exact ih yr (by simpa using h)

theorem zipWith_snd_of_length_eq :
    ∀ (xs ys : List ℚ), xs.length = ys.length →
      List.zipWith (fun _ b => b) xs ys = ys := by
  intro xs
  induction xs with
  | nil =>
      intro ys h
      cases ys with
      | nil => simp
      | cons y yr => simp at h
  | cons x xr ih =>
      intro ys h
      cases ys with
      | nil => simp at h
      | cons y yr =>
          simp only [List.zipWith_cons_cons, List.cons.injEq, true_and]
          exact ih yr (by simpa using h)

theorem interpAt_before (p : ℚ × List ℚ) (rest : List (ℚ × List ℚ)) (t : ℚ)
    (hsort : List.Pairwise (fun a b : ℚ × List ℚ => a.1 < b.1) (p :: rest))
    (h : t < p.1) :
    interpAt (p :: rest) t = .ok p.2 := by
  have hc : searchsortedLeft (p :: rest) t = 0 := by
    refine countP_lt_eq_of_split t _ 0 (Nat.zero_le _) (by omega) ?_
    intro m _ hm
    cases Nat.eq_zero_or_pos m with
    | inl h0 =>
        subst h0
        simpa using not_lt.mpr (le_of_lt h)
    | inr hpos =>
        have hlt := pairwise_fst_getD _ hsort 0 m hpos hm
        simp only [List.getD_cons_zero] at hlt
        exact not_lt.mpr (le_of_lt (lt_trans h hlt))
  simp [interpAt, hc]

theorem interpAt_after (p : ℚ × List ℚ) (rest : List (ℚ × List ℚ)) (t : ℚ)
    (hsort : List.Pairwise (fun a b : ℚ × List ℚ => a.1 < b.1) (p :: rest))
    (h : ((p :: rest).getD ((p :: rest).length - 1) (0, [])).1 < t) :
    interpAt (p :: rest) t =
      .ok ((p :: rest).getD ((p :: rest).length - 1) (0, [])).2 := by
  have hc : searchsortedLeft (p :: rest) t = (p :: rest).length := by
    refine countP_lt_eq_of_split t _ _ (le_refl _) ?_ (by omega)
    intro m hm
    by_cases hm' : m = (p :: rest).length - 1
    · subst hm'; exact h
    · have hlt := pairwise_fst_getD _ hsort m ((p :: rest).length - 1)
        (by omega) (by simp)
      exact lt_trans hlt h
  rw [interpAt]
  rw [if_neg (by simp [hc]), if_pos hc, getLastD_eq_getD]

theorem interpAt_bracket (p : ℚ × List ℚ) (rest : List (ℚ × List ℚ)) (t : ℚ)
    (d : Nat) (i : Nat)
    (hsort : List.Pairwise (fun a b : ℚ × List ℚ => a.1 < b.1) (p :: rest))
    (hrows : ∀ q ∈ p :: rest, q.2.length = d)
    (hi : i + 1 < (p :: rest).length)
    (hle1 : ((p :: rest).getD i (0, [])).1 ≤ t)
    (hle2 : t ≤ ((p :: rest).getD (i + 1) (0, [])).1) :
    interpAt (p :: rest) t =
      .ok (lerpRow ((p :: rest).getD i (0, []))
        ((p :: rest).getD (i + 1) (0, [])) t) := by
  have hleni : ((p :: rest).getD i (0, [])).2.length = d := by
    rw [List.getD_eq_getElem _ _ (by omega)]
    exact hrows _ (List.getElem_mem _)
  have hleni1 : ((p :: rest).getD (i + 1) (0, [])).2.length = d := by
    rw [List.getD_eq_getElem _ _ hi]
    exact hrows _ (List.getElem_mem _)
  rcases lt_or_eq_of_le hle1 with hlt | heq
  · -- strictly inside the bracket (or at its right end): upper = i + 1
    have hc : searchsortedLeft (p :: rest) t = i + 1 := by
      refine countP_lt_eq_of_split t _ _ (by omega) ?_ ?_
      · intro m hm
        rcases Nat.lt_or_ge m i with hmi | hmi
        · exact lt_trans (pairwise_fst_getD _ hsort m i hmi (by omega)) hlt
        · have hmeq : m = i := by omega
          subst hmeq; exact hlt
      · intro m hm1 hm2
        rcases Nat.lt_or_ge (i + 1) m with hmi | hmi
        · exact not_lt.mpr
            (le_trans hle2 (le_of_lt (pairwise_fst_getD _ hsort (i + 1) m hmi hm2)))
        · have hmeq : m = i + 1 := by omega
          subst hmeq; exact not_lt.mpr hle2
    rw [interpAt]
    rw [if_neg (by simp [hc]), if_neg (by rw [hc]; omega)]
    rw [hc]
    simp
  · -- exactly at the left end of the bracket: upper = i
    have hc : searchsortedLeft (p :: rest) t = i := by
      refine countP_lt_eq_of_split t _ _ (by omega) ?_ ?_
      · intro m hm
        exact heq ▸ pairwise_fst_getD _ hsort m i hm (by omega)
      · intro m hm1 hm2
        rcases Nat.lt_or_ge i m with hmi | hmi
        · exact fun hcon =>
            absurd (lt_trans (heq ▸ pairwise_fst_getD _ hsort i m hmi hm2) hcon)
              (lt_irrefl t)
        · have hmeq : m = i := by omega
          subst hmeq
          rw [heq]
          exact lt_irrefl t
    have hα2 : (t - ((p :: rest).getD i (0, [])).1) /
        (((p :: rest).getD (i + 1) (0, [])).1 - ((p :: rest).getD i (0, [])).1)
          = 0 := by
      rw [← heq, sub_self, zero_div]
    cases Nat.eq_zero_or_pos i with
    | inl h0 =>
        subst h0
        rw [interpAt, if_pos hc]
        congr 1
        rw [lerpRow, hα2]
        simp only [sub_zero, one_mul, zero_mul, add_zero, List.getD_cons_zero]
        refine (zipWith_fst_of_length_eq _ _ ?_).symm
        simp only [List.getD_cons_zero] at hleni
        rw [hleni, hleni1]
    | inr hpos =>
        rw [interpAt]
        rw [if_neg (by simp [hc]; omega), if_neg (by rw [hc]; omega)]
        rw [hc]
        have hleni2 : ((p :: rest).getD (i - 1) (0, [])).2.length = d := by
          rw [List.getD_eq_getElem _ _ (by omega)]
          exact hrows _ (List.getElem_mem _)
        have hlo : ((p :: rest).getD (i - 1) (0, [])).1 <
            ((p :: rest).getD i (0, [])).1 :=
          pairwise_fst_getD _ hsort (i - 1) i (by omega) (by omega)
        have hα1 : (t - ((p :: rest).getD (i - 1) (0, [])).1) /
            (((p :: rest).getD i (0, [])).1 - ((p :: rest).getD (i - 1) (0, [])).1)
              = 1 := by
          rw [← heq]
          exact div_self (sub_ne_zero.mpr (ne_of_gt hlo))
        congr 1
        rw [lerpRow, lerpRow, hα1, hα2]
        simp only [sub_self, zero_mul, one_mul, zero_add, sub_zero, add_zero]
        rw [zipWith_snd_of_length_eq _ _ (by rw [hleni2, hleni]),
          zipWith_fst_of_length_eq _ _ (by rw [hleni, hleni1])]

theorem interpAt_isOk (p : ℚ × List ℚ) (rest : List (ℚ × List ℚ)) (t : ℚ) :
    ∃ v, interpAt (p :: rest) t = .ok v := by
  rw [interpAt]
  split_ifs <;> exact ⟨_, rfl⟩

theorem interpList_ok_of_ne_nil (p : ℚ × List ℚ) (rest : List (ℚ × List ℚ)) :
    ∀ ts : List ℚ, ∃ out, interpList (p :: rest) ts = .ok out ∧
      out.length = ts.length ∧
      ∀ j, j < ts.length →
        interpAt (p :: rest) (ts.getD j 0) = .ok (out.getD j []) := by
  intro ts
  induction ts with
  | nil =>
      refine ⟨[], rfl, rfl, ?_⟩
      intro j hj
      simp at hj
  | cons t tr ih =>
      obtain ⟨out, hok, hlen, hidx⟩ := ih
      obtain ⟨v, hv⟩ := interpAt_isOk p rest t
      refine ⟨v :: out, ?_, by simp [hlen], ?_⟩
      · rw [interpList, hv, hok]
      · intro j hj
        cases j with
        | zero => simpa using hv
        | succ k =>
            have hk : k < tr.length := by simpa using hj
            simpa using hidx k hk

/-- C3.  For every clip under the continuous policy whose sorted onset
sequence is non-empty and strictly increasing (with uniform value
dimension d), each timestamp is answered by: the first value below the
first onset, the last value above the last onset, and the linear
interpolation `(1-alpha)*v_i + alpha*v_(i+1)` with
`alpha = (t-onset_i)/(onset_(i+1)-onset_i)` between bracketing
onsets. -/
theorem continuous_interpolation_spec (events : List Event) (ts : List ℚ)
    (d : Nat) (hne : sortedPairs events ≠ [])
    (hsort : List.Pairwise (fun a b : ℚ × List ℚ => a.1 < b.1) (sortedPairs events))
    (hrows : ∀ q ∈ sortedPairs events, q.2.length = d) :
    ∃ out, continuousClip events ts = .ok out ∧ out.length = ts.length ∧
      ∀ j, j < ts.length →
        (ts.getD j 0 < ((sortedPairs events).getD 0 (0, [])).1 →
          out.getD j [] = ((sortedPairs events).getD 0 (0, [])).2) ∧
        ((((sortedPairs events).getD ((sortedPairs events).length - 1) (0, [])).1
            < ts.getD j 0 →
          out.getD j [] =
            ((sortedPairs events).getD ((sortedPairs events).length - 1) (0, [])).2)) ∧
        (∀ i, i + 1 < (sortedPairs events).length →
          ((sortedPairs events).getD i (0, [])).1 ≤ ts.getD j 0 →
          ts.getD j 0 ≤ ((sortedPairs events).getD (i + 1) (0, [])).1 →
          out.getD j [] = lerpRow ((sortedPairs events).getD i (0, []))
            ((sortedPairs events).getD (i + 1) (0, [])) (ts.getD j 0)) := by
  rcases hs : sortedPairs events with _ | ⟨p, rest⟩
  · exact absurd hs hne
  rw [hs] at hsort hrows
  obtain ⟨out, hok, hlen, hidx⟩ := interpList_ok_of_ne_nil p rest ts
  refine ⟨out, ?_, hlen, ?_⟩
  · rw [continuousClip, hs]
    exact hok
  · intro j hj
    have hj' := hidx j hj
    refine ⟨?_, ?_, ?_⟩
    · intro hbefore
      simp only [List.getD_cons_zero] at hbefore
      have h1 := interpAt_before p rest (ts.getD j 0) hsort hbefore
      rw [h1] at hj'
      simpa [eq_comm] using hj'
    · intro hafter
      have h1 := interpAt_after p rest (ts.getD j 0) hsort hafter
      rw [h1] at hj'
      simpa [eq_comm] using hj'
    · intro i hilen hle1 hle2
      have h1 := interpAt_bracket p rest (ts.getD j 0) d i hsort hrows hilen hle1 hle2
      rw [h1] at hj'
      simpa [eq_comm] using hj'

/-- C3, witness: the spec scenario — onsets 0 and 1000 with values
[0, 0] and [1, 1]; the theorem's bracket case at t = 500 gives the
interpolated row, which evaluates to [1/2, 1/2]. -/
theorem continuous_interpolation_spec_witness :
    continuousClip [⟨0, 0, "", [0, 0]⟩, ⟨1000, 0, "", [1, 1]⟩] [500] =
      .ok [[1/2, 1/2]] := by
  have hs : sortedPairs [⟨0, 0, "", [0, 0]⟩, ⟨1000, 0, "", [1, 1]⟩] =
      [(0, [0, 0]), (1000, [1, 1])] := by
    norm_num [sortedPairs, sortByFst, insertByFst]
  obtain ⟨out, hok, hlen, hidx⟩ :=
    continuous_interpolation_spec [⟨0, 0, "", [0, 0]⟩, ⟨1000, 0, "", [1, 1]⟩]
      [500] 2 (by rw [hs]; simp)
      (by rw [hs]; norm_num [List.pairwise_cons])
      (by
        intro q hq
        rw [hs] at hq
        rcases List.mem_cons.mp hq with rfl | hq2
        · norm_num
        · rcases List.mem_cons.mp hq2 with rfl | hq3
          · norm_num
          · simp at hq3)
  have h3 := (hidx 0 (by norm_num)).2.2 0
    (by rw [hs]; norm_num)
    (by rw [hs]; simp only [List.getD_cons_zero, List.getD_cons_succ]; norm_num)
    (by rw [hs]; simp only [List.getD_cons_zero, List.getD_cons_succ]; norm_num)
  rw [hs] at h3
  simp only [List.getD_cons_zero, List.getD_cons_succ] at h3
  have hval : lerpRow ((0 : ℚ), ([0, 0] : List ℚ)) ((1000 : ℚ), ([1, 1] : List ℚ))
      500 = [1/2, 1/2] := by
    norm_num [lerpRow]
  obtain ⟨a, ha⟩ := List.length_eq_one.mp (by simpa using hlen)
  rw [hok, ha]
  rw [ha] at h3
  simp only [List.getD_cons_zero] at h3
  rw [h3, hval]

/-! ### Helper lemmas: the split consolidator -/

theorem sizingStep_event {L : Type} (etype : String)
    (hety : etype = "event" ∨ etype = "continuous") (acc : Nat × Option Nat)
    (f : SplitFile L) (hf : f.emb.shape.length = 2) :
    sizingStep etype acc f =
      .ok (acc.1 + f.emb.shape.getD 0 0, some (f.emb.shape.getD 1 0)) := by
  rcases hety with rfl | rfl <;> simp [sizingStep, astypeFloat32, hf]

theorem sizingStep_scene {L : Type} (acc : Nat × Option Nat) (f : SplitFile L)
    (hf : f.emb.shape.length = 1) :
    sizingStep "scene" acc f = .ok (acc.1 + 1, some (f.emb.shape.getD 0 0)) := by
  simp [sizingStep, astypeFloat32, hf]

theorem sizingLoop_event {L : Type} (etype : String)
    (hety : etype = "event" ∨ etype = "continuous") (d : Nat) :
    ∀ (files : List (SplitFile L)) (n : Nat) (nd : Option Nat),
      (∀ f ∈ files, f.emb.shape.length = 2 ∧ f.emb.shape.getD 1 0 = d) →
      files ≠ [] →
      sizingLoop etype (n, nd) files =
        .ok (n + (files.map (fun f => f.emb.shape.getD 0 0)).sum, some d) := by
  intro files
  induction files with
  | nil => intro n nd _ hne; exact absurd rfl hne
  | cons f rest ih =>
      intro n nd hall _
      obtain ⟨hf2, hfd⟩ := hall f (List.mem_cons_self _ _)
      rw [sizingLoop, sizingStep_event etype hety (n, nd) f hf2]
      rcases rest with _ | ⟨g, gr⟩
      · simp [sizingLoop]
        simpa using hfd
      · have hall' : ∀ x ∈ g :: gr,
            x.emb.shape.length = 2 ∧ x.emb.shape.getD 1 0 = d :=
          fun x hx => hall x (List.mem_cons_of_mem _ hx)
        have hrec := ih (n + f.emb.shape.getD 0 0) (some (f.emb.shape.getD 1 0))
          hall' (by simp)
        simp only []
        rw [hrec]
        simp [Nat.add_assoc]

theorem sizingLoop_scene {L : Type} (d : Nat) :
    ∀ (files : List (SplitFile L)) (n : Nat) (nd : Option Nat),
      (∀ f ∈ files, f.emb.shape = [d]) →
      files ≠ [] →
      sizingLoop "scene" (n, nd) files = .ok (n + files.length, some d) := by
  intro files
  induction files with
  | nil => intro n nd _ hne; exact absurd rfl hne
  | cons f rest ih =>
      intro n nd hall _
      have hf := hall f (List.mem_cons_self _ _)
      rw [sizingLoop, sizingStep_scene (n, nd) f (by simp [hf])]
      rcases rest with _ | ⟨g, gr⟩
      · simp [sizingLoop, hf]
      · have hall' : ∀ x ∈ g :: gr, x.emb.shape = [d] :=
          fun x hx => hall x (List.mem_cons_of_mem _ hx)
        have hrec := ih (n + 1) (some (f.emb.shape.getD 0 0)) hall' (by simp)
        simp only []
        rw [hrec]
        simp [Nat.add_assoc, Nat.add_comm]

theorem fillStep_event {L : Type} (meta : TaskMetadata)
    (hety : meta.embedding_type = "event" ∨ meta.embedding_type = "continuous")
    (nemb ndim idx : Nat) (labels : List (CLbl L)) (fts : List (String × ℚ))
    (f : SplitFile L) (hshape : f.emb.shape = [f.lbl.length, ndim])
    (hts : f.timestamps.length = f.lbl.length)
    (hbound : idx + f.lbl.length ≤ nemb) :
    fillStep meta nemb ndim (idx, labels, fts) f =
      .ok (idx + f.lbl.length, labels ++ f.lbl.map CLbl.entry,
           fts ++ f.timestamps.map (fun t => (f.name, t))) := by
  have hbc : min nemb (idx + f.lbl.length) - idx = f.lbl.length := by omega
  rcases hety with h | h <;>
    simp [fillStep, h, hshape, hts, hbc]

theorem fillStep_scene {L : Type} (meta : TaskMetadata)
    (hsc : meta.embedding_type = "scene") (nemb ndim idx : Nat)
    (labels : List (CLbl L)) (fts : List (String × ℚ)) (f : SplitFile L)
    (hshape : f.emb.shape = [ndim]) (hidx : idx < nemb)
    (hmc : meta.prediction_type = "multiclass" → f.lbl.length = 1) :
    fillStep meta nemb ndim (idx, labels, fts) f =
      .ok (idx + 1, labels ++ [CLbl.file f.lbl], fts) := by
  by_cases hp : meta.prediction_type = "multiclass"
  · simp [fillStep, hsc, hshape, hidx, hp, hmc hp]
  · by_cases hp2 : meta.prediction_type = "multilabel" <;>
      simp [fillStep, hsc, hshape, hidx, hp, hp2]

theorem fillLoop_event {L : Type} (meta : TaskMetadata)
    (hety : meta.embedding_type = "event" ∨ meta.embedding_type = "continuous")
    (nemb ndim : Nat) :
    ∀ (files : List (SplitFile L)) (idx : Nat) (labels : List (CLbl L))
      (fts : List (String × ℚ)),
      (∀ f ∈ files, f.emb.shape = [f.lbl.length, ndim] ∧
        f.timestamps.length = f.lbl.length) →
      idx + (files.map (fun f => f.lbl.length)).sum ≤ nemb →
      ∃ labels2 fts2,
        fillLoop meta nemb ndim (idx, labels, fts) files =
          .ok (idx + (files.map (fun f => f.lbl.length)).sum, labels2, fts2) ∧
        labels2.length = labels.length + (files.map (fun f => f.lbl.length)).sum ∧
        fts2.length = fts.length + (files.map (fun f => f.lbl.length)).sum := by
  intro files
  induction files with
  | nil =>
      intro idx labels fts _ _
      exact ⟨labels, fts, by simp [fillLoop], by simp, by simp⟩
  | cons f rest ih =>
      intro idx labels fts hall hbound
      obtain ⟨hshape, hts⟩ := hall f (List.mem_cons_self _ _)
      simp only [List.map_cons, List.sum_cons] at hbound
      have hb1 : idx + f.lbl.length ≤ nemb := by omega
      have hstep := fillStep_event meta hety nemb ndim idx labels fts f hshape hts hb1
      obtain ⟨l2, f2, hloop, hl2, hf2⟩ :=
        ih (idx + f.lbl.length) (labels ++ f.lbl.map CLbl.entry)
          (fts ++ f.timestamps.map (fun t => (f.name, t)))
          (fun x hx => hall x (List.mem_cons_of_mem _ hx)) (by omega)
      refine ⟨l2, f2, ?_, ?_, ?_⟩
      · rw [fillLoop, hstep]
        simp only []
        rw [hloop]
        simp [Nat.add_assoc]
      · rw [hl2]
        simp [hts, Nat.add_assoc]
      · rw [hf2]
        simp [hts, Nat.add_assoc]

theorem fillLoop_scene {L : Type} (meta : TaskMetadata)
    (hsc : meta.embedding_type = "scene") (nemb ndim : Nat) :
    ∀ (files : List (SplitFile L)) (idx : Nat) (labels : List (CLbl L))
      (fts : List (String × ℚ)),
      (∀ f ∈ files, f.emb.shape = [ndim]) →
      (meta.prediction_type = "multiclass" → ∀ f ∈ files, f.lbl.length = 1) →
      idx + files.length ≤ nemb →
      ∃ labels2,
        fillLoop meta nemb ndim (idx, labels, fts) files =
          .ok (idx + files.length, labels2, fts) ∧
        labels2.length = labels.length + files.length := by
  intro files
  induction files with
  | nil =>
      intro idx labels fts _ _ _
      exact ⟨labels, by simp [fillLoop], by simp⟩
  | cons f rest ih =>
      intro idx labels fts hall hmc hbound
      have hshape := hall f (List.mem_cons_self _ _)
      have hstep := fillStep_scene meta hsc nemb ndim idx labels fts f hshape
        (by simp at hbound; omega)
        (fun hp => hmc hp f (List.mem_cons_self _ _))
      obtain ⟨l2, hloop, hl2⟩ :=
        ih (idx + 1) (labels ++ [CLbl.file f.lbl]) fts
          (fun x hx => hall x (List.mem_cons_of_mem _ hx))
          (fun hp x hx => hmc hp x (List.mem_cons_of_mem _ hx))
          (by simp at hbound ⊢; omega)
      refine ⟨l2, ?_, ?_⟩
      · rw [fillLoop, hstep]
        simp only []
        have harith : idx + 1 + rest.length = idx + (f :: rest).length := by
          simp only [List.length_cons]
          omega
        rw [hloop, harith]
      · rw [hl2]
        simp
        omega

/-- C6.  For consistent per-file artifacts the sizing pass reports N as
the sum of per-file row counts (first embedding dimension per file for
event/continuous splits, 1 per file for scene splits) and the fill pass
accumulates a label list of length N and, for non-scene splits, a
(file, timestamp) reference list of length N. -/
theorem consolidation_counts :
    (∀ (meta : TaskMetadata) (files : List (SplitFile String)) (d : Nat),
      (meta.embedding_type = "event" ∨ meta.embedding_type = "continuous") →
      files ≠ [] →
      (∀ f ∈ files, f.emb.shape = [f.lbl.length, d] ∧
        f.timestamps.length = f.lbl.length) →
      ∃ labels fts,
        memmap_embeddings meta files =
          .ok (((files.map (rowCount meta.embedding_type)).sum, d), labels, fts) ∧
        labels.length = (files.map (rowCount meta.embedding_type)).sum ∧
        fts.length = (files.map (rowCount meta.embedding_type)).sum) ∧
    (∀ (meta : TaskMetadata) (files : List (SplitFile String)) (d : Nat),
      meta.embedding_type = "scene" →
      files ≠ [] →
      (∀ f ∈ files, f.emb.shape = [d]) →
      (meta.prediction_type = "multiclass" → ∀ f ∈ files, f.lbl.length = 1) →
      ∃ labels fts,
        memmap_embeddings meta files =
          .ok (((files.map (rowCount meta.embedding_type)).sum, d), labels, fts) ∧
        labels.length = (files.map (rowCount meta.embedding_type)).sum) := by
  constructor
  · intro meta files d hety hne hall
    have hsc : meta.embedding_type ≠ "scene" := by
      rcases hety with h | h <;> rw [h] <;> decide
    have hrc : files.map (rowCount meta.embedding_type) =
        files.map (fun f => f.lbl.length) := by
      apply List.map_congr_left
      intro f hf
      rw [rowCount, if_neg hsc, (hall f hf).1]
      rfl
    have hshapes : ∀ f ∈ files, f.emb.shape.length = 2 ∧
        f.emb.shape.getD 1 0 = d := by
      intro f hf
      rw [(hall f hf).1]
      exact ⟨rfl, rfl⟩
    have hsum2 : (files.map (fun f => f.emb.shape.getD 0 0)).sum =
        (files.map (fun f => f.lbl.length)).sum := by
      congr 1
      apply List.map_congr_left
      intro f hf
      rw [(hall f hf).1]
      rfl
    have hsz : sizingPass meta.embedding_type files =
        .ok ((files.map (fun f => f.lbl.length)).sum, d) := by
      have hsz0 := sizingLoop_event meta.embedding_type hety d files 0 none
        hshapes hne
      rw [hsum2, Nat.zero_add] at hsz0
      rw [sizingPass, hsz0]
    obtain ⟨l2, f2, hloop, hl2, hf2⟩ :=
      fillLoop_event meta hety ((files.map (fun f => f.lbl.length)).sum) d files
        0 [] [] (fun f hf => hall f hf) (by omega)
    have hfp : fillPass meta ((files.map (fun f => f.lbl.length)).sum) d files =
        .ok (l2, f2) := by
      rw [fillPass, hloop]
      simp only []
      rw [if_pos hety, if_pos (by simp [hl2, hf2])]
    refine ⟨l2, f2, ?_, ?_, ?_⟩
    · rw [memmap_embeddings, hsz]
      simp only []
      rw [hfp, hrc]
    · rw [hl2, hrc]
      simp
    · rw [hf2, hrc]
      simp
  · intro meta files d hsc hne hall hmc
    have hnotev : ¬ (meta.embedding_type = "event" ∨
        meta.embedding_type = "continuous") := by
      rw [hsc]; decide
    have hrc : files.map (rowCount meta.embedding_type) =
        files.map (fun _ => 1) := by
      apply List.map_congr_left
      intro f hf
      rw [rowCount, if_pos hsc]
    have hones : ∀ l : List (SplitFile String), (l.map (fun _ => 1)).sum = l.length := by
      intro l
      induction l with
      | nil => rfl
      | cons x r ihx => simp [ihx, Nat.add_comm]
    have hsz : sizingPass meta.embedding_type files = .ok (files.length, d) := by
      rw [sizingPass, hsc, sizingLoop_scene d files 0 none hall hne]
      simp
    obtain ⟨l2, hloop, hl2⟩ :=
      fillLoop_scene meta hsc files.length d files 0 [] [] hall hmc (by omega)
    have hfp : fillPass meta files.length d files = .ok (l2, []) := by
      rw [fillPass, hloop]
      simp only []
      rw [if_neg hnotev]
    refine ⟨l2, [], ?_, ?_⟩
    · rw [memmap_embeddings, hsz]
      simp only []
      rw [hfp, hrc, hones]
    · rw [hl2, hrc, hones]
      simp

/-- C6, witness: three event-type files of shape (10, 128) are reported
as dimensions (30, 128) with 30 accumulated labels and timestamp
references. -/
theorem consolidation_counts_witness :
    ((⟨"event", "multiclass"⟩ : TaskMetadata).embedding_type = "event" ∨
      (⟨"event", "multiclass"⟩ : TaskMetadata).embedding_type = "continuous") ∧
    (∃ labels fts,
      memmap_embeddings (⟨"event", "multiclass"⟩ : TaskMetadata)
        ([⟨"a", ⟨.float32, [10, 128]⟩, List.replicate 10 "x",
            List.replicate 10 (0 : ℚ)⟩,
          ⟨"b", ⟨.float32, [10, 128]⟩, List.replicate 10 "x",
            List.replicate 10 (0 : ℚ)⟩,
          ⟨"c", ⟨.float32, [10, 128]⟩, List.replicate 10 "x",
            List.replicate 10 (0 : ℚ)⟩] : List (SplitFile String)) =
        .ok (((([⟨"a", ⟨.float32, [10, 128]⟩, List.replicate 10 "x",
            List.replicate 10 (0 : ℚ)⟩,
          ⟨"b", ⟨.float32, [10, 128]⟩, List.replicate 10 "x",
            List.replicate 10 (0 : ℚ)⟩,
          ⟨"c", ⟨.float32, [10, 128]⟩, List.replicate 10 "x",
            List.replicate 10 (0 : ℚ)⟩] : List (SplitFile String)).map
              (rowCount "event")).sum, 128), labels, fts) ∧
      labels.length = (([⟨"a", ⟨.float32, [10, 128]⟩, List.replicate 10 "x",
            List.replicate 10 (0 : ℚ)⟩,
          ⟨"b", ⟨.float32, [10, 128]⟩, List.replicate 10 "x",
            List.replicate 10 (0 : ℚ)⟩,
          ⟨"c", ⟨.float32, [10, 128]⟩, List.replicate 10 "x",
            List.replicate 10 (0 : ℚ)⟩] : List (SplitFile String)).map
              (rowCount "event")).sum ∧
      fts.length = (([⟨"a", ⟨.float32, [10, 128]⟩, List.replicate 10 "x",
            List.replicate 10 (0 : ℚ)⟩,
          ⟨"b", ⟨.float32, [10, 128]⟩, List.replicate 10 "x",
            List.replicate 10 (0 : ℚ)⟩,
          ⟨"c", ⟨.float32, [10, 128]⟩, List.replicate 10 "x",
            List.replicate 10 (0 : ℚ)⟩] : List (SplitFile String)).map
              (rowCount "event")).sum) :=
  ⟨Or.inl rfl,
    consolidation_counts.1 ⟨"event", "multiclass"⟩ _ 128 (Or.inl rfl)
      (by simp)
      (by
        intro f hf
        rcases List.mem_cons.mp hf with rfl | hf2
        · constructor <;> simp
        · rcases List.mem_cons.mp hf2 with rfl | hf3
          · constructor <;> simp
          · rcases List.mem_cons.mp hf3 with rfl | hf4
            · constructor <;> simp
            · simp at hf4)⟩

theorem sizingStep_event_err {L : Type} (etype : String)
    (hety : etype = "event" ∨ etype = "continuous") (acc : Nat × Option Nat)
    (f : SplitFile L) (hf : f.emb.shape.length ≠ 2) :
    sizingStep etype acc f = .error .assertionError := by
  rcases hety with rfl | rfl <;> simp [sizingStep, astypeFloat32, hf]

theorem sizingStep_scene_err {L : Type} (acc : Nat × Option Nat)
    (f : SplitFile L) (hf : f.emb.shape.length ≠ 1) :
    sizingStep "scene" acc f = .error .assertionError := by
  simp [sizingStep, astypeFloat32, hf]

theorem sizingLoop_event_ok_some {L : Type} (etype : String)
    (hety : etype = "event" ∨ etype = "continuous") :
    ∀ (files : List (SplitFile L)) (n d0 : Nat),
      (∀ f ∈ files, f.emb.shape.length = 2) →
      ∃ n2 d2, sizingLoop etype (n, some d0) files = .ok (n2, some d2) := by
  intro files
  induction files with
  | nil => intro n d0 _; exact ⟨n, d0, rfl⟩
  | cons f rest ih =>
      intro n d0 hall
      rw [sizingLoop, sizingStep_event etype hety (n, some d0) f
        (hall f (List.mem_cons_self _ _))]
      exact ih _ _ (fun x hx => hall x (List.mem_cons_of_mem _ hx))

theorem sizingLoop_scene_ok_some {L : Type} :
    ∀ (files : List (SplitFile L)) (n d0 : Nat),
      (∀ f ∈ files, f.emb.shape.length = 1) →
      ∃ n2 d2, sizingLoop "scene" (n, some d0) files = .ok (n2, some d2) := by
  intro files
  induction files with
  | nil => intro n d0 _; exact ⟨n, d0, rfl⟩
  | cons f rest ih =>
      intro n d0 hall
      rw [sizingLoop, sizingStep_scene (n, some d0) f
        (hall f (List.mem_cons_self _ _))]
      exact ih _ _ (fun x hx => hall x (List.mem_cons_of_mem _ hx))

theorem sizingLoop_event_err {L : Type} (etype : String)
    (hety : etype = "event" ∨ etype = "continuous") :
    ∀ (files : List (SplitFile L)) (acc : Nat × Option Nat)
      (g : SplitFile L), g ∈ files → g.emb.shape.length ≠ 2 →
      sizingLoop etype acc files = .error .assertionError := by
  intro files
  induction files with
  | nil => intro acc g hg _; simp at hg
  | cons f rest ih =>
      intro acc g hg hbad
      by_cases hf : f.emb.shape.length = 2
      · rw [sizingLoop, sizingStep_event etype hety acc f hf]
        rcases List.mem_cons.mp hg with rfl | hg2
        · exact absurd hf hbad
        · exact ih _ g hg2 hbad
      · rw [sizingLoop, sizingStep_event_err etype hety acc f hf]

theorem sizingLoop_scene_err {L : Type} :
    ∀ (files : List (SplitFile L)) (acc : Nat × Option Nat)
      (g : SplitFile L), g ∈ files → g.emb.shape.length ≠ 1 →
      sizingLoop "scene" acc files = .error .assertionError := by
  intro files
  induction files with
  | nil => intro acc g hg _; simp at hg
  | cons f rest ih =>
      intro acc g hg hbad
      by_cases hf : f.emb.shape.length = 1
      · rw [sizingLoop, sizingStep_scene acc f hf]
        rcases List.mem_cons.mp hg with rfl | hg2
        · exact absurd hf hbad
        · exact ih _ g hg2 hbad
      · rw [sizingLoop, sizingStep_scene_err acc f hf]

/-- C7, amended.  Pass 1 of consolidation succeeds exactly when the
split is non-empty and every file's rank matches the embedding type
(2-D for event, 1-D for scene); neither the dtype (cast away on load)
nor cross-file column counts are validated there — a column-count
mismatch surfaces, if at all, only as a broadcast failure in pass 2,
after the output array has been allocated (last conjunct). -/
theorem pass1_rank_only_validation :
    (∀ files : List (SplitFile String),
      (∃ r, sizingPass "event" files = .ok r) ↔
        (files ≠ [] ∧ ∀ f ∈ files, f.emb.shape.length = 2)) ∧
    (∀ files : List (SplitFile String),
      (∃ r, sizingPass "scene" files = .ok r) ↔
        (files ≠ [] ∧ ∀ f ∈ files, f.emb.shape.length = 1)) ∧
    memmap_embeddings ⟨"event", "multilabel"⟩
      ([⟨"a", ⟨.float32, [2, 5]⟩, ["x", "y"], [0, 1]⟩,
        ⟨"b", ⟨.float32, [2, 3]⟩, ["p", "q"], [0, 1]⟩] : List (SplitFile String))
      = .error .broadcastError := by
  refine ⟨?_, ?_, ?_⟩
  · intro files
    constructor
    · rintro ⟨r, hr⟩
      rcases files with _ | ⟨f, rest⟩
      · exact absurd hr (by simp [sizingPass, sizingLoop])
      · refine ⟨by simp, ?_⟩
        intro g hg
        by_contra hbad
        rw [sizingPass,
          sizingLoop_event_err "event" (Or.inl rfl) (f :: rest) (0, none) g hg
            hbad] at hr
        exact absurd hr (by simp)
    · rintro ⟨hne, hall⟩
      rcases files with _ | ⟨f, rest⟩
      · exact absurd rfl hne
      · rw [sizingPass, sizingLoop,
          sizingStep_event "event" (Or.inl rfl) (0, none) f
            (hall f (List.mem_cons_self _ _))]
        obtain ⟨n2, d2, hloop⟩ := sizingLoop_event_ok_some "event" (Or.inl rfl)
          rest (0 + f.emb.shape.getD 0 0) (f.emb.shape.getD 1 0)
          (fun x hx => hall x (List.mem_cons_of_mem _ hx))
        refine ⟨(n2, d2), ?_⟩
        simp at hloop
        simp [hloop]
  · intro files
    constructor
    · rintro ⟨r, hr⟩
      rcases files with _ | ⟨f, rest⟩
      · exact absurd hr (by simp [sizingPass, sizingLoop])
      · refine ⟨by simp, ?_⟩
        intro g hg
        by_contra hbad
        rw [sizingPass, sizingLoop_scene_err (f :: rest) (0, none) g hg hbad]
          at hr
        exact absurd hr (by simp)
    · rintro ⟨hne, hall⟩
      rcases files with _ | ⟨f, rest⟩
      · exact absurd rfl hne
      · rw [sizingPass, sizingLoop,
          sizingStep_scene (0, none) f (hall f (List.mem_cons_self _ _))]
        obtain ⟨n2, d2, hloop⟩ := sizingLoop_scene_ok_some
          rest (0 + 1) (f.emb.shape.getD 0 0)
          (fun x hx => hall x (List.mem_cons_of_mem _ hx))
        refine ⟨(n2, d2), ?_⟩
        simp at hloop
        simp [hloop]
  · simp [memmap_embeddings, sizingPass, sizingLoop, sizingStep, astypeFloat32,
      fillPass, fillLoop, fillStep]

/-- C7, amended, witness: a single well-ranked event file makes the
sizing pass succeed. -/
theorem pass1_rank_only_validation_witness :
    (([⟨"a", ⟨.float32, [2, 3]⟩, ["x", "y"], [0, 1]⟩] : List (SplitFile String))
        ≠ [] ∧
      ∀ f ∈ ([⟨"a", ⟨.float32, [2, 3]⟩, ["x", "y"], [0, 1]⟩] :
          List (SplitFile String)), f.emb.shape.length = 2) ∧
    (∃ r, sizingPass "event"
      ([⟨"a", ⟨.float32, [2, 3]⟩, ["x", "y"], [0, 1]⟩] : List (SplitFile String))
        = .ok r) :=
  ⟨⟨by simp, by simp⟩,
    (pass1_rank_only_validation.1 _).mpr ⟨by simp, by simp⟩⟩
